import Mathlib

/-!
Verification of the `blend` asset-bundling pipeline (`pipeline/Resource.py`).

The development shallowly embeds the `Resource` class: file contents and
paths are `List Char`, the two requirement-detection regexes are embedded
as explicit backtracking-faithful matchers, discovery over directory roots
takes each root's recursive walk (an ordered list of path/content pairs,
walked files always have readable content) as input, and the merge
operation returns the observable outcome at the output path (`written`
text, a byte-for-byte `copied` file, or `none` for a raised `TypeError`).
-/

namespace Blend

/-- Characters of the regex class `\s` (the ASCII range, which is all the
code's inputs use). -/
def isSpaceChar (c : Char) : Bool :=
  c = ' ' || c = '\t' || c = '\n' || c = '\r' || c = '\x0b' || c = '\x0c'

/-- Characters of the regex class `[ \t]`. -/
def isBlank (c : Char) : Bool :=
  c = ' ' || c = '\t'

/-- Consume an exact literal prefix, returning the remaining suffix. -/
def dropLiteral : List Char → List Char → Option (List Char)
  | [], s => some s
  | _ :: _, [] => none
  | l :: ls, c :: cs => if c = l then dropLiteral ls cs else none

/-- Consume a non-empty maximal run of `[ \t]` (the regex `[ \t]+`; the
character after it in both patterns is never a blank, so maximal munch is
faithful).  Returns the run length and the remaining suffix. -/
def dropBlanks1 (s : List Char) : Option (Nat × List Char) :=
  if (s.takeWhile isBlank).length = 0 then none
  else some ((s.takeWhile isBlank).length, s.dropWhile isBlank)

/-- Index of the last `>` or `"` in the list, if any. -/
def lastDelimIdx : List Char → Option Nat
  | [] => none
  | c :: cs =>
    match lastDelimIdx cs with
    | some k => some (k + 1)
    | none => if c = '>' ∨ c = '"' then some 0 else none

/-- Backtracking target of `(\S+)[>"]`: the largest index `k ≥ 1` of the
non-whitespace run holding `>` or `"`; the capture `\S+` must be non-empty,
so an index-0 delimiter is rejected. -/
def lastCloser (l : List Char) : Option Nat :=
  match lastDelimIdx l with
  | some (k + 1) => some (k + 1)
  | _ => none

/-- Attempt to match the javascript pattern
`\s*//=[ \t]+require[ \t]+([<"])(\S+)[>"][ \t]*` at the head of `s`,
mirroring the Python engine: `\s*` before the literal `//=` and `[ \t]+`
before non-blank literals are maximal munch, and the greedy `(\S+)[>"]`
captures up to the last `>` or `"` of the maximal non-whitespace run.
Returns the first group (the opening delimiter), the second group (the
name) and the total matched length. -/
def matchRequireAt (s : List Char) : Option (Char × List Char × Nat) :=
  match dropLiteral ('/' :: '/' :: '=' :: []) (s.dropWhile isSpaceChar) with
  | none => none
  | some r2 =>
    match dropBlanks1 r2 with
    | none => none
    | some (b1, r3) =>
      match dropLiteral "require".data r3 with
      | none => none
      | some r4 =>
        match dropBlanks1 r4 with
        | none => none
        | some (b2, r5) =>
          match r5 with
          | [] => none
          | g :: r6 =>
            if g = '<' ∨ g = '"' then
              match lastCloser (r6.takeWhile (fun c => !(isSpaceChar c))) with
              | none => none
              | some k =>
                some (g, (r6.takeWhile (fun c => !(isSpaceChar c))).take k,
                  (s.takeWhile isSpaceChar).length + 3 + b1 + 7 + b2 + 1 + (k + 1) +
                    ((r6.drop (k + 1)).takeWhile isBlank).length)
            else none

/-- Backtracking target of `(\S+)"\)`: the largest index `k ≥ 1` of the
non-whitespace run where `"` is immediately followed by `)`. -/
def lastQuoteParenIdx : List Char → Option Nat
  | [] => none
  | [_] => none
  | c :: c2 :: cs =>
    match lastQuoteParenIdx (c2 :: cs) with
    | some k => some (k + 1)
    | none => if c = '"' ∧ c2 = ')' then some 0 else none

/-- Restriction of `lastQuoteParenIdx` to indices `≥ 1` (the capture `\S+`
must be non-empty). -/
def lastQuoteParen (l : List Char) : Option Nat :=
  match lastQuoteParenIdx l with
  | some (k + 1) => some (k + 1)
  | _ => none

/-- Attempt to match the css pattern `\@import url\((")(\S+)"\)` at the
head of `s`; the first group is always `"`. -/
def matchImportAt (s : List Char) : Option (Char × List Char × Nat) :=
  match dropLiteral "@import url(\"".data s with
  | none => none
  | some r1 =>
    match lastQuoteParen (r1.takeWhile (fun c => !(isSpaceChar c))) with
    | none => none
    | some k =>
      some ('"', (r1.takeWhile (fun c => !(isSpaceChar c))).take k, 13 + (k + 1) + 1)

/-- One detected dependency declaration (class `Requirement`): the captured
name, the declaration type (`'global'` for `<...>`, else `'local'`), and the
half-open span of the matched text in the owning content. -/
structure Requirement where
  name : List Char
  type : List Char
  insert_location : Nat × Nat
deriving DecidableEq

/-- `re.finditer` over the content together with the loop body of
`_set_requirements`: scan left to right, at each position attempt the
pattern; on a match emit a `Requirement` whose span is the match span and
continue after the match, otherwise advance one character.  The fuel is the
length of the scanned text (every step consumes at least one character). -/
def finditer (m : List Char → Option (Char × List Char × Nat)) :
    Nat → List Char → Nat → List Requirement
  | 0, _, _ => []
  | fuel + 1, s, pos =>
    match m s with
    | some (g0, nm, len) =>
      Requirement.mk nm (if g0 = '<' then "global".data else "local".data)
          (pos, pos + len) ::
        finditer m fuel (s.drop len) (pos + len)
    | none =>
      match s with
      | [] => []
      | _ :: rest => finditer m fuel rest (pos + 1)

/-- The scan run by `_set_requirements` for a non-unknown file type: the
javascript regex for `'javascript'`, the css regex otherwise. -/
def requirement_scan (file_type c : List Char) : List Requirement :=
  if file_type = "javascript".data then finditer matchRequireAt c.length c 0
  else finditer matchImportAt c.length c 0

/-- `Resource._set_requirements`: `None` when the file type is `'unknown'`
or the content is absent; otherwise the scan result, with the
build-the-list-lazily loop leaving `None` when there are no matches. -/
def _set_requirements (file_type : List Char) (content : Option (List Char)) :
    Option (List Requirement) :=
  match content with
  | none => none
  | some c =>
    if file_type = "unknown".data then none
    else if requirement_scan file_type c = [] then none
    else some (requirement_scan file_type c)

/-- Split a path at its last `/` and keep the part after it
(`os.path.split(path)[1]` on posix). -/
def rpartitionList (sep : Char) : List Char → Option (List Char × List Char)
  | [] => none
  | c :: cs =>
    match rpartitionList sep cs with
    | some (a, b) => some (c :: a, b)
    | none => if c = sep then some ([], cs) else none

/-- The final path component (`os.path.split(path)[1]`, posix rules). -/
def pathBasename (p : List Char) : List Char :=
  match rpartitionList '/' p with
  | some (_, f) => f
  | none => p

/-- `os.path.splitext` (posix): split off the extension at the last `.` of
the final path component, unless every character of that component before
the `.` is itself a `.` (dotfiles such as `.bashrc` get no extension).
The returned extension includes its leading dot. -/
def splitext (p : List Char) : List Char × List Char :=
  match rpartitionList '.' (pathBasename p) with
  | none => (p, [])
  | some (stem, ext) =>
    if stem.any (fun c => c ≠ '.') then
      (p.take (p.length - (ext.length + 1)), '.' :: ext)
    else (p, [])

/-- `Resource._parse_extension_and_file_type`: the lower-cased extension
without its dot, and the file type derived from it. -/
def _parse_extension_and_file_type (path : List Char) : List Char × List Char :=
  let ext := ((splitext path).2.map Char.toLower).drop 1
  (ext,
    if ext = "js".data ∨ ext = "javascript".data then "javascript".data
    else if ext = "css".data then "css".data
    else "unknown".data)

/-- `Resource._parse_base_name`: take the file name, keep the part before
its last `.` (the whole-name third component of `rpartition`, hence the
empty string when there is no `.`), lower-case it, strip a trailing
`-min`, then keep the part before the last `-` when one remains. -/
def _parse_base_name (path : List Char) : List Char :=
  let name :=
    match rpartitionList '.' (pathBasename path) with
    | some (n, _) => n
    | none => []
  let lower_name := name.map Char.toLower
  let stripped :=
    if lower_name.drop (lower_name.length - 4) = "-min".data then
      lower_name.take (lower_name.length - 4)
    else lower_name
  match rpartitionList '-' stripped with
  | some (without_version, _) => without_version
  | none => stripped

/-- Class `Resource`: the path it was constructed from and the content read
at construction time (`none` when the file did not exist). -/
structure Resource where
  path_to_file : List Char
  content : Option (List Char)
deriving DecidableEq

/-- Property `Resource.extension`. -/
def Resource.extension (r : Resource) : List Char :=
  (_parse_extension_and_file_type r.path_to_file).1

/-- Property `Resource.file_type`. -/
def Resource.file_type (r : Resource) : List Char :=
  (_parse_extension_and_file_type r.path_to_file).2

/-- Property `Resource.base_name`. -/
def Resource.base_name (r : Resource) : List Char :=
  _parse_base_name r.path_to_file

/-- Property `Resource.requirements`, as set by the constructor. -/
def Resource.requirements (r : Resource) : Option (List Requirement) :=
  _set_requirements r.file_type r.content

/-- `Resource._find_all_of_type_in_path`: a root directory is modelled by
its recursive `os.walk`, the ordered list of (path, content) pairs below
it; every walked file exists, so each carries its content.  A `Resource`
is constructed per file and kept when its file type matches. -/
def _find_all_of_type_in_path (file_type : List Char)
    (walk : List (List Char × List Char)) : List Resource :=
  (walk.map (fun f => Resource.mk f.1 (some f.2))).filter
    (fun r => r.file_type = file_type)

/-- `Resource.find_all_of_type_in_environment`: the environment supplies
its ordered search roots (`environment.paths`), each modelled by its walk;
the per-root results are concatenated in root order, and an empty aggregate
is reported as `None`. -/
def find_all_of_type_in_environment (file_type : List Char)
    (environment : List (List (List Char × List Char))) : Option (List Resource) :=
  let resources := (environment.map (_find_all_of_type_in_path file_type)).flatten
  if resources.length > 0 then some resources else none

/-- Observable outcome of the merge at the output path: merged text written
through `f.write`, or a byte-for-byte `shutil.copyfile` of the source. -/
inductive MergeOutput where
  | written (text : List Char)
  | copied
deriving DecidableEq

/-- The inner `for resource in ...: if ...: ... break` search: the first
pool resource whose base name equals the requirement's name. -/
def findFirstMatch (nm : List Char) : List Resource → Option Resource
  | [] => none
  | res :: rest => if res.base_name = nm then some res else findFirstMatch nm rest

/-- One iteration of the outer merge loop: when a pool resource matches,
`merged_content[:start+1] + resource.content + merged_content[end:]`
(pool resources are constructed from walked files, so their content is
always present); otherwise the buffer is unchanged. -/
def spliceRequirement (buf : List Char) (requirement : Requirement)
    (pool : List Resource) : List Char :=
  match findFirstMatch requirement.name pool with
  | some resource =>
      buf.take (requirement.insert_location.1 + 1) ++ resource.content.getD []
        ++ buf.drop requirement.insert_location.2
  | none => buf

/-- The outer merge loop over all requirements, in order, against a fixed
discovery pool. -/
def mergeBuffer (pool : List Resource) (content : List Char)
    (reqs : List Requirement) : List Char :=
  reqs.foldl (fun buf requirement => spliceRequirement buf requirement pool) content

/-- `Resource.merge_requirements_from_environemnt` (source spelling):
`''.join(self.content)` raises a `TypeError` when the content is absent
(modelled `none`); with no (or falsy empty) requirements the source file is
copied byte-for-byte; otherwise the per-requirement loop iterates the
discovery result, which raises a `TypeError` when that result is `None`,
and the spliced buffer is written to the output path. -/
def merge_requirements_from_environemnt (r : Resource)
    (environment : List (List (List Char × List Char))) : Option MergeOutput :=
  match r.content with
  | none => none
  | some merged_content =>
    match r.requirements with
    | none => some MergeOutput.copied
    | some [] => some MergeOutput.copied
    | some reqs =>
      match find_all_of_type_in_environment r.file_type environment with
      | none => none
      | some pool => some (MergeOutput.written (mergeBuffer pool merged_content reqs))

/-- Splicing as the specification words it, for comparison with
`spliceRequirement`: replace exactly the substring covering the span
`[start, end)` with the matched resource's content. -/
def spliceRequirementSpec (buf : List Char) (requirement : Requirement)
    (pool : List Resource) : List Char :=
  match findFirstMatch requirement.name pool with
  | some resource =>
      buf.take requirement.insert_location.1 ++ resource.content.getD []
        ++ buf.drop requirement.insert_location.2
  | none => buf

/-- The base-name computation as the specification words it, for comparison
with `_parse_base_name`: the file name with its extension (as computed by
extension parsing) stripped, lower-cased, a trailing `-min` stripped, then
the part after the last remaining hyphen dropped. -/
def base_name_spec (path : List Char) : List Char :=
  let file := pathBasename path
  let stripped_ext := file.take (file.length - (splitext path).2.length)
  let lower_name := stripped_ext.map Char.toLower
  let stripped :=
    if lower_name.drop (lower_name.length - 4) = "-min".data then
      lower_name.take (lower_name.length - 4)
    else lower_name
  match rpartitionList '-' stripped with
  | some (without_version, _) => without_version
  | none => stripped

/-! ## Helper lemmas -/

theorem dropLiteral_length : ∀ (lit s r : List Char),
    dropLiteral lit s = some r → s.length = lit.length + r.length
  | [], s, r, h => by
    simp only [dropLiteral, Option.some.injEq] at h
    simp [h]
  | _ :: _, [], r, h => by simp [dropLiteral] at h
  | l :: ls, c :: cs, r, h => by
    simp only [dropLiteral] at h
    by_cases hc : c = l
    · rw [if_pos hc] at h
      have := dropLiteral_length ls cs r h
      simp [List.length_cons, this]
      omega
    · rw [if_neg hc] at h
      exact absurd h (by simp)

theorem length_takeWhile_add_dropWhile (p : Char → Bool) (s : List Char) :
    (s.takeWhile p).length + (s.dropWhile p).length = s.length := by
  rw [← List.length_append, List.takeWhile_append_dropWhile]

theorem takeWhile_length_le (p : Char → Bool) (s : List Char) :
    (s.takeWhile p).length ≤ s.length := by
  have := length_takeWhile_add_dropWhile p s
  omega

theorem dropBlanks1_spec {s : List Char} {n : Nat} {r : List Char}
    (h : dropBlanks1 s = some (n, r)) : 1 ≤ n ∧ s.length = n + r.length := by
  unfold dropBlanks1 at h
  by_cases h0 : (s.takeWhile isBlank).length = 0
  · rw [if_pos h0] at h; exact absurd h (by simp)
  · rw [if_neg h0] at h
    simp only [Option.some.injEq, Prod.mk.injEq] at h
    obtain ⟨rfl, rfl⟩ := h
    have := length_takeWhile_add_dropWhile isBlank s
    omega

theorem lastDelimIdx_lt : ∀ (l : List Char) (k : Nat),
    lastDelimIdx l = some k → k < l.length
  | [], k, h => by simp [lastDelimIdx] at h
  | c :: cs, k, h => by
    simp only [lastDelimIdx] at h
    cases hm : lastDelimIdx cs with
    | some k0 =>
      rw [hm] at h
      simp only [Option.some.injEq] at h
      have := lastDelimIdx_lt cs k0 hm
      simp [← h, List.length_cons]
      omega
    | none =>
      rw [hm] at h
      by_cases hc : c = '>' ∨ c = '"'
      · rw [if_pos hc] at h
        simp only [Option.some.injEq] at h
        simp [← h]
      · rw [if_neg hc] at h; exact absurd h (by simp)

theorem lastCloser_spec {l : List Char} {k : Nat} (h : lastCloser l = some k) :
    1 ≤ k ∧ k < l.length := by
  unfold lastCloser at h
  cases hm : lastDelimIdx l with
  | some k0 =>
    rw [hm] at h
    cases k0 with
    | zero => exact absurd h (by simp)
    | succ k1 =>
      simp only [Option.some.injEq] at h
      subst h
      exact ⟨Nat.succ_le_succ (Nat.zero_le k1), lastDelimIdx_lt l (k1 + 1) hm⟩
  | none => rw [hm] at h; exact absurd h (by simp)

theorem lastQuoteParenIdx_lt : ∀ (l : List Char) (k : Nat),
    lastQuoteParenIdx l = some k → k + 1 < l.length
  | [], k, h => by simp [lastQuoteParenIdx] at h
  | [_], k, h => by simp [lastQuoteParenIdx] at h
  | c :: c2 :: cs, k, h => by
    simp only [lastQuoteParenIdx] at h
    cases hm : lastQuoteParenIdx (c2 :: cs) with
    | some k0 =>
      rw [hm] at h
      simp only [Option.some.injEq] at h
      have := lastQuoteParenIdx_lt (c2 :: cs) k0 hm
      simp only [List.length_cons] at this ⊢
      omega
    | none =>
      rw [hm] at h
      by_cases hc : c = '"' ∧ c2 = ')'
      · rw [if_pos hc] at h
        simp only [Option.some.injEq] at h
        simp [← h, List.length_cons]
      · rw [if_neg hc] at h; exact absurd h (by simp)

theorem lastQuoteParen_spec {l : List Char} {k : Nat}
    (h : lastQuoteParen l = some k) : 1 ≤ k ∧ k + 1 < l.length := by
  unfold lastQuoteParen at h
  cases hm : lastQuoteParenIdx l with
  | some k0 =>
    rw [hm] at h
    cases k0 with
    | zero => exact absurd h (by simp)
    | succ k1 =>
      simp only [Option.some.injEq] at h
      subst h
      exact ⟨Nat.succ_le_succ (Nat.zero_le k1), lastQuoteParenIdx_lt l (k1 + 1) hm⟩
  | none => rw [hm] at h; exact absurd h (by simp)

theorem matchRequireAt_sound {s : List Char} {g : Char} {nm : List Char} {len : Nat}
    (h : matchRequireAt s = some (g, nm, len)) :
    nm ≠ [] ∧ 0 < len ∧ len ≤ s.length := by
  unfold matchRequireAt at h
  cases hd : dropLiteral ('/' :: '/' :: '=' :: []) (s.dropWhile isSpaceChar) with
  | none => simp [hd] at h
  | some r2 =>
    simp only [hd] at h
    cases hb1 : dropBlanks1 r2 with
    | none => simp [hb1] at h
    | some p1 =>
      obtain ⟨b1, r3⟩ := p1
      simp only [hb1] at h
      cases hr : dropLiteral "require".data r3 with
      | none => simp [hr] at h
      | some r4 =>
        simp only [hr] at h
        cases hb2 : dropBlanks1 r4 with
        | none => simp [hb2] at h
        | some p2 =>
          obtain ⟨b2, r5⟩ := p2
          simp only [hb2] at h
          cases r5 with
          | nil => simp at h
          | cons g' r6 =>
            simp only at h
            by_cases hg : g' = '<' ∨ g' = '"'
            · rw [if_pos hg] at h
              cases hlc : lastCloser (r6.takeWhile fun c => !(isSpaceChar c)) with
              | none => simp [hlc] at h
              | some k =>
                simp only [hlc, Option.some.injEq, Prod.mk.injEq] at h
                obtain ⟨-, hnm, hlen⟩ := h
                subst hnm; subst hlen
                obtain ⟨hk1, hk2⟩ := lastCloser_spec hlc
                have eW := length_takeWhile_add_dropWhile isSpaceChar s
                have e2 := dropLiteral_length _ _ _ hd
                have e3 := dropBlanks1_spec hb1
                have e4 := dropLiteral_length _ _ _ hr
                have e5 := dropBlanks1_spec hb2
                have e6 := takeWhile_length_le (fun c => !(isSpaceChar c)) r6
                have e8 := takeWhile_length_le isBlank (r6.drop (k + 1))
                have e9 : (r6.drop (k + 1)).length = r6.length - (k + 1) :=
                  List.length_drop (k + 1) r6
                simp only [List.length_cons] at e2 e4 e5
                refine ⟨?_, by omega, ?_⟩
                · have : ((r6.takeWhile fun c => !(isSpaceChar c)).take k).length = k := by
                    rw [List.length_take]; omega
                  intro hnil
                  rw [hnil] at this
                  simp at this
                  omega
                · have h7 : ("require".data).length = 7 := rfl
                  omega
            · rw [if_neg hg] at h; exact absurd h (by simp)

theorem matchImportAt_sound {s : List Char} {g : Char} {nm : List Char} {len : Nat}
    (h : matchImportAt s = some (g, nm, len)) :
    nm ≠ [] ∧ 0 < len ∧ len ≤ s.length := by
  unfold matchImportAt at h
  cases hd : dropLiteral "@import url(\"".data s with
  | none => simp [hd] at h
  | some r1 =>
    simp only [hd] at h
    cases hq : lastQuoteParen (r1.takeWhile fun c => !(isSpaceChar c)) with
    | none => simp [hq] at h
    | some k =>
      simp only [hq, Option.some.injEq, Prod.mk.injEq] at h
      obtain ⟨-, hnm, hlen⟩ := h
      subst hnm; subst hlen
      obtain ⟨hk1, hk2⟩ := lastQuoteParen_spec hq
      have e1 := dropLiteral_length _ _ _ hd
      have e2 := takeWhile_length_le (fun c => !(isSpaceChar c)) r1
      have h13 : ("@import url(\"".data).length = 13 := rfl
      refine ⟨?_, by omega, by omega⟩
      have : ((r1.takeWhile fun c => !(isSpaceChar c)).take k).length = k := by
        rw [List.length_take]; omega
      intro hnil
      rw [hnil] at this
      simp at this
      omega

theorem finditer_sound (m : List Char → Option (Char × List Char × Nat))
    (hm : ∀ s g nm len, m s = some (g, nm, len) → nm ≠ [] ∧ 0 < len ∧ len ≤ s.length) :
    ∀ (fuel : Nat) (s : List Char) (pos : Nat) (req : Requirement),
      req ∈ finditer m fuel s pos →
        req.name ≠ [] ∧ req.insert_location.1 < req.insert_location.2 ∧
          req.insert_location.2 ≤ pos + s.length := by
  intro fuel
  induction fuel with
  | zero => intro s pos req hreq; simp [finditer] at hreq
  | succ n ih =>
    have hunf : ∀ (s : List Char) (pos : Nat), finditer m (n + 1) s pos =
        match m s with
        | some (g0, nm, len) =>
          Requirement.mk nm (if g0 = '<' then "global".data else "local".data)
              (pos, pos + len) ::
            finditer m n (s.drop len) (pos + len)
        | none =>
          match s with
          | [] => []
          | _ :: rest => finditer m n rest (pos + 1) := fun _ _ => rfl
    intro s pos req hreq
    rw [hunf] at hreq
    cases hms : m s with
    | some t =>
      obtain ⟨g0, nm, len⟩ := t
      simp only [hms, List.mem_cons] at hreq
      obtain ⟨hnm, hlen0, hlenle⟩ := hm s g0 nm len hms
      cases hreq with
      | inl he =>
        subst he
        exact ⟨hnm, by simp; omega, by simp; omega⟩
      | inr hmem =>
        have := ih (s.drop len) (pos + len) req hmem
        have hd : (s.drop len).length = s.length - len := List.length_drop len s
        refine ⟨this.1, this.2.1, by omega⟩
    | none =>
      simp only [hms] at hreq
      cases s with
      | nil => simp at hreq
      | cons c rest =>
        simp only [] at hreq
        have := ih rest (pos + 1) req hreq
        refine ⟨this.1, this.2.1, by simp [List.length_cons]; omega⟩

theorem requirement_scan_sound (file_type c : List Char) (req : Requirement)
    (h : req ∈ requirement_scan file_type c) :
    req.name ≠ [] ∧ req.insert_location.1 < req.insert_location.2 ∧
      req.insert_location.2 ≤ c.length := by
  unfold requirement_scan at h
  by_cases hft : file_type = "javascript".data
  · rw [if_pos hft] at h
    have := finditer_sound matchRequireAt
      (fun _ _ _ _ hx => matchRequireAt_sound hx) c.length c 0 req h
    simpa using this
  · rw [if_neg hft] at h
    have := finditer_sound matchImportAt
      (fun _ _ _ _ hx => matchImportAt_sound hx) c.length c 0 req h
    simpa using this

theorem set_requirements_some {file_type : List Char} {content : Option (List Char)}
    {l : List Requirement} (h : _set_requirements file_type content = some l) :
    ∃ c, content = some c ∧ l = requirement_scan file_type c ∧ l ≠ [] := by
  unfold _set_requirements at h
  cases content with
  | none => exact absurd h (by simp)
  | some c =>
    simp only at h
    by_cases h1 : file_type = "unknown".data
    · rw [if_pos h1] at h; exact absurd h (by simp)
    · rw [if_neg h1] at h
      by_cases h2 : requirement_scan file_type c = []
      · rw [if_pos h2] at h; exact absurd h (by simp)
      · rw [if_neg h2] at h
        simp only [Option.some.injEq] at h
        exact ⟨c, rfl, h.symm, h ▸ h2⟩

theorem rpartitionList_append_ne_none (sep : Char) (l1 l2 : List Char) :
    rpartitionList sep (l1 ++ sep :: l2) ≠ none := by
  induction l1 with
  | nil =>
    simp only [List.nil_append, rpartitionList]
    cases hx : rpartitionList sep l2 <;> simp
  | cons x xs ihx =>
    simp only [List.cons_append, rpartitionList]
    cases hx : rpartitionList sep (xs ++ sep :: l2) with
    | some p => simp
    | none => exact absurd hx ihx

theorem rpartitionList_eq : ∀ {sep : Char} {l a b : List Char},
    rpartitionList sep l = some (a, b) → l = a ++ sep :: b ∧ sep ∉ b := by
  intro sep l
  induction l with
  | nil => intro a b h; simp [rpartitionList] at h
  | cons c cs ih =>
    intro a b h
    simp only [rpartitionList] at h
    cases hm : rpartitionList sep cs with
    | some p =>
      obtain ⟨a0, b0⟩ := p
      rw [hm] at h
      simp only [Option.some.injEq, Prod.mk.injEq] at h
      obtain ⟨rfl, rfl⟩ := h
      obtain ⟨he, hnb⟩ := ih hm
      exact ⟨by rw [he]; rfl, hnb⟩
    | none =>
      rw [hm] at h
      by_cases hc : c = sep
      · rw [if_pos hc] at h
        simp only [Option.some.injEq, Prod.mk.injEq] at h
        obtain ⟨rfl, rfl⟩ := h
        subst hc
        refine ⟨rfl, fun hmem => ?_⟩
        obtain ⟨l1, l2, rfl⟩ := List.append_of_mem hmem
        exact rpartitionList_append_ne_none c l1 l2 hm
      · rw [if_neg hc] at h; exact absurd h (by simp)

theorem findFirstMatch_spec {nm : List Char} {pool : List Resource} {res : Resource}
    (h : findFirstMatch nm pool = some res) :
    ∃ l1 l2, pool = l1 ++ res :: l2 ∧ res.base_name = nm ∧
      ∀ x ∈ l1, x.base_name ≠ nm := by
  induction pool with
  | nil => simp [findFirstMatch] at h
  | cons a rest ih =>
    simp only [findFirstMatch] at h
    by_cases ha : a.base_name = nm
    · rw [if_pos ha] at h
      simp only [Option.some.injEq] at h
      subst h
      exact ⟨[], rest, rfl, ha, by simp⟩
    · rw [if_neg ha] at h
      obtain ⟨l1, l2, hp, hb, hne⟩ := ih h
      refine ⟨a :: l1, l2, by rw [hp]; rfl, hb, ?_⟩
      intro x hx
      rcases List.mem_cons.mp hx with rfl | hx'
      · exact ha
      · exact hne x hx'

theorem findFirstMatch_none {nm : List Char} {pool : List Resource}
    (h : findFirstMatch nm pool = none) : ∀ x ∈ pool, x.base_name ≠ nm := by
  induction pool with
  | nil => simp
  | cons a rest ih =>
    simp only [findFirstMatch] at h
    by_cases ha : a.base_name = nm
    · rw [if_pos ha] at h; exact absurd h (by simp)
    · rw [if_neg ha] at h
      intro x hx
      rcases List.mem_cons.mp hx with rfl | hx'
      · exact ha
      · exact ih h x hx'

/-! ## Claim theorems -/

/-- C2: merging `dir1/file1.js` (content `// This is file 1\n//= require <file2>`)
against an environment whose root walk contains it and `dir2/file2.js`
(content `// This is file 2`) writes `// This is file 1\n` followed by
file2's content, and rescanning the output finds no requirement
declaration left. -/
theorem merge_two_file_scenario :
    merge_requirements_from_environemnt
        (Resource.mk "dir1/file1.js".data
          (some "// This is file 1\n//= require <file2>".data))
        [[("dir1/file1.js".data, "// This is file 1\n//= require <file2>".data),
          ("dir2/file2.js".data, "// This is file 2".data)]]
      = some (MergeOutput.written "// This is file 1\n// This is file 2".data)
    ∧ requirement_scan "javascript".data
        "// This is file 1\n// This is file 2".data = [] :=
  ⟨by decide, by decide⟩

/-- C4: scanning the three-line javascript content yields exactly the two
requirements `jquery` (global, span `[0,20)`) and `openlayers` (local,
span `[34,58)`), in that order. -/
theorem scan_two_requirements_example :
    (Resource.mk "test.js".data
        (some "//= require <jquery>\nvar foo = \x7b\x7d;//= require \"openlayers\"\n var s = \"some other thing\"\n".data)).requirements
      = some [Requirement.mk "jquery".data "global".data (0, 20),
              Requirement.mk "openlayers".data "local".data (34, 58)] := by
  decide

/-- C10: the opening and closing delimiters are matched independently, so
`//= require <jquery"` still yields a requirement, whose type comes solely
from the opening delimiter: `<` gives global even when closed by `"`, and
`"` gives local even when closed by `>`. -/
theorem mismatched_delimiters_still_match :
    (Resource.mk "a.js".data (some "//= require <jquery\"".data)).requirements
        = some [Requirement.mk "jquery".data "global".data (0, 20)]
      ∧ (Resource.mk "b.js".data (some "//= require \"jquery>".data)).requirements
        = some [Requirement.mk "jquery".data "local".data (0, 20)] :=
  ⟨by decide, by decide⟩

/-- C1 counterexample: the claim "the merge replaces the substring covering
exactly the span `[start, end)`" fails.  For `f.js` with content
`//= require <x>` (requirement span `[0,15)`) and a pool resource `x.js`
with content `Z`, the merge writes `/Z` — the span's first character
survives — while an exact-span replacement would produce `Z`. -/
theorem merge_span_replacement_not_exact_cex :
    (Resource.mk "f.js".data (some "//= require <x>".data)).requirements
      = some [Requirement.mk "x".data "global".data (0, 15)]
    ∧ merge_requirements_from_environemnt
        (Resource.mk "f.js".data (some "//= require <x>".data))
        [[("x.js".data, "Z".data)]]
      = some (MergeOutput.written "/Z".data)
    ∧ spliceRequirementSpec "//= require <x>".data
        (Requirement.mk "x".data "global".data (0, 15))
        [Resource.mk "x.js".data (some "Z".data)] = "Z".data
    ∧ "/Z".data ≠ "Z".data :=
  ⟨by decide, by decide, by decide, by decide⟩

/-- C1 (amended): when the resource has content and requirements and the
discovery pool is non-empty, the merge writes the buffer obtained by
splicing each requirement in order; a requirement with a pool match has the
substring covering `[start+1, end)` of the working buffer — the span minus
its first character — replaced by the content of the first matching
resource in discovery order (earlier pool members do not match). -/
theorem merge_replaces_span_after_first_char
    (r : Resource) (environment : List (List (List Char × List Char)))
    (c : List Char) (reqs : List Requirement) (pool : List Resource)
    (hc : r.content = some c) (hr : r.requirements = some reqs)
    (hpool : find_all_of_type_in_environment r.file_type environment = some pool) :
    merge_requirements_from_environemnt r environment =
      some (MergeOutput.written (mergeBuffer pool c reqs))
    ∧ ∀ (buf : List Char) (req : Requirement) (res : Resource),
        findFirstMatch req.name pool = some res →
          spliceRequirement buf req pool =
            buf.take (req.insert_location.1 + 1) ++ res.content.getD []
              ++ buf.drop req.insert_location.2
          ∧ ∃ l1 l2, pool = l1 ++ res :: l2 ∧ res.base_name = req.name
              ∧ ∀ x ∈ l1, x.base_name ≠ req.name := by
  constructor
  · have hne : reqs ≠ [] := by
      unfold Resource.requirements at hr
      obtain ⟨-, -, -, hne⟩ := set_requirements_some hr
      exact hne
    obtain ⟨q, qs, rfl⟩ : ∃ q qs, reqs = q :: qs := by
      cases reqs with
      | nil => exact absurd rfl hne
      | cons q qs => exact ⟨q, qs, rfl⟩
    simp only [merge_requirements_from_environemnt, hc, hr, hpool]
  · intro buf req res hfm
    refine ⟨?_, findFirstMatch_spec hfm⟩
    simp only [spliceRequirement, hfm]

/-- Witness for the amended C1 theorem at a concrete merge. -/
theorem merge_replaces_span_after_first_char_witness :
    merge_requirements_from_environemnt
        (Resource.mk "a.js".data (some "//= require <b>".data))
        [[("b.js".data, "B".data)]]
      = some (MergeOutput.written
          (mergeBuffer [Resource.mk "b.js".data (some "B".data)]
            "//= require <b>".data [Requirement.mk "b".data "global".data (0, 15)]))
    ∧ ∀ (buf : List Char) (req : Requirement) (res : Resource),
        findFirstMatch req.name [Resource.mk "b.js".data (some "B".data)] = some res →
          spliceRequirement buf req [Resource.mk "b.js".data (some "B".data)] =
            buf.take (req.insert_location.1 + 1) ++ res.content.getD []
              ++ buf.drop req.insert_location.2
          ∧ ∃ l1 l2, [Resource.mk "b.js".data (some "B".data)] = l1 ++ res :: l2
              ∧ res.base_name = req.name ∧ ∀ x ∈ l1, x.base_name ≠ req.name :=
  merge_replaces_span_after_first_char
    (Resource.mk "a.js".data (some "//= require <b>".data))
    [[("b.js".data, "B".data)]]
    "//= require <b>".data
    [Requirement.mk "b".data "global".data (0, 15)]
    [Resource.mk "b.js".data (some "B".data)]
    rfl (by decide) (by decide)

/-- C3: a requirement whose name matches no discovered resource is left
untouched only while the discovery pool is non-empty; when the environment
holds no resource of the merged resource's type at all, discovery returns
`None` and the merge loop's iteration over it raises a `TypeError`
(modelled `none`) instead of the claimed silent no-op. -/
theorem merge_unresolved_requirement_behaviour :
    merge_requirements_from_environemnt
        (Resource.mk "main.js".data (some "//= require <lib>".data))
        [[("main.js".data, "//= require <lib>".data),
          ("other.js".data, "// other".data)]]
      = some (MergeOutput.written "//= require <lib>".data)
    ∧ merge_requirements_from_environemnt
        (Resource.mk "main.js".data (some "//= require <lib>".data))
        [[("style.css".data, "css content".data)]]
      = none :=
  ⟨by decide, by decide⟩

/-- C8: merging a resource whose requirements are absent copies the source
file byte-for-byte to the output path (given the source content exists, as
copying presupposes). -/
theorem merge_no_requirements_copies (r : Resource) (c : List Char)
    (environment : List (List (List Char × List Char)))
    (hc : r.content = some c) (hr : r.requirements = none) :
    merge_requirements_from_environemnt r environment = some MergeOutput.copied := by
  simp only [merge_requirements_from_environemnt, hc, hr]

/-- Witness for the C8 theorem at a concrete requirement-free resource. -/
theorem merge_no_requirements_copies_witness :
    merge_requirements_from_environemnt
        (Resource.mk "plain.js".data (some "var x;".data)) []
      = some MergeOutput.copied :=
  merge_no_requirements_copies (Resource.mk "plain.js".data (some "var x;".data))
    "var x;".data [] rfl (by decide)

/-- C9: every requirement produced by the requirement scan of a resource's
content has a non-empty name and a span with `start < end` lying within the
bounds of that content. -/
theorem scan_requirement_invariants (r : Resource) (c : List Char)
    (l : List Requirement) (req : Requirement)
    (hc : r.content = some c) (hl : r.requirements = some l) (hreq : req ∈ l) :
    req.name ≠ [] ∧ req.insert_location.1 < req.insert_location.2 ∧
      req.insert_location.2 ≤ c.length := by
  unfold Resource.requirements at hl
  obtain ⟨c', hc', hl', -⟩ := set_requirements_some hl
  rw [hc] at hc'
  obtain rfl : c = c' := by injection hc'
  rw [hl'] at hreq
  exact requirement_scan_sound r.file_type c req hreq

/-- Witness for the C9 theorem at a concrete scanned requirement. -/
theorem scan_requirement_invariants_witness :
    (Requirement.mk "a".data "global".data (0, 15)).name ≠ []
    ∧ (Requirement.mk "a".data "global".data (0, 15)).insert_location.1 <
        (Requirement.mk "a".data "global".data (0, 15)).insert_location.2
    ∧ (Requirement.mk "a".data "global".data (0, 15)).insert_location.2 ≤
        ("//= require <a>".data).length :=
  scan_requirement_invariants
    (Resource.mk "w.js".data (some "//= require <a>".data))
    "//= require <a>".data
    [Requirement.mk "a".data "global".data (0, 15)]
    (Requirement.mk "a".data "global".data (0, 15))
    rfl (by decide) (by decide)

/-- C5 counterexample: for the path `noExtension` the claimed formula (file
name with its — here empty — extension stripped, then normalized) gives
`noextension`, but `_parse_base_name` keeps the part before the last `.`
of the file name, which is empty when no `.` occurs, so the base name is
the empty string. -/
theorem base_name_extensionless_cex :
    _parse_base_name "noExtension".data = []
    ∧ base_name_spec "noExtension".data = "noextension".data
    ∧ ([] : List Char) ≠ "noextension".data :=
  ⟨by decide, by decide, by decide⟩

/-- C5 (amended): whenever extension parsing finds a non-empty extension,
the base name is the file name with that extension stripped, lower-cased,
a trailing `-min` stripped, then the part after the last remaining hyphen
dropped; and the three example normalizations hold. -/
theorem base_name_matches_spec_on_extension_paths (p : List Char)
    (h : (splitext p).2 ≠ []) :
    _parse_base_name p = base_name_spec p
    ∧ _parse_base_name "some-Plugin-2.3.2-min.js".data = "some-plugin".data
    ∧ _parse_base_name "jQuery-1.2.3.js".data = "jquery".data
    ∧ _parse_base_name "FILE.JS".data = "file".data := by
  refine ⟨?_, by decide, by decide, by decide⟩
  unfold splitext at h
  cases hm : rpartitionList '.' (pathBasename p) with
  | none => rw [hm] at h; simp at h
  | some pr =>
    obtain ⟨stem, ext⟩ := pr
    rw [hm] at h
    by_cases hany : stem.any (fun c => c ≠ '.')
    · have hfile := (rpartitionList_eq hm).1
      have htake : (pathBasename p).take
          ((pathBasename p).length - (ext.length + 1)) = stem := by
        rw [hfile]
        have h1 : (stem ++ '.' :: ext).length - (ext.length + 1) = stem.length := by
          simp [List.length_append, List.length_cons]
        rw [h1]
        exact List.take_left stem ('.' :: ext)
      simp only [_parse_base_name, base_name_spec, splitext, hm, if_pos hany,
        List.length_cons, htake]
    · have hcond : ¬∃ x ∈ stem, ¬x = '.' := by simpa using hany
      simp [hcond] at h

/-- Witness for the amended C5 theorem at the path `FILE.JS`. -/
theorem base_name_matches_spec_on_extension_paths_witness :
    _parse_base_name "FILE.JS".data = base_name_spec "FILE.JS".data
    ∧ _parse_base_name "some-Plugin-2.3.2-min.js".data = "some-plugin".data
    ∧ _parse_base_name "jQuery-1.2.3.js".data = "jquery".data
    ∧ _parse_base_name "FILE.JS".data = "file".data :=
  base_name_matches_spec_on_extension_paths "FILE.JS".data (by decide)

/-- C6: a constructed resource's requirements are never an empty sequence,
and they are `None` exactly when the file type is unknown, the content is
absent, or the scan of the present content finds zero matches. -/
theorem requirements_none_or_nonempty (r : Resource) :
    (∀ l, r.requirements = some l → l ≠ [])
    ∧ (r.requirements = none ↔
        r.file_type = "unknown".data ∨ r.content = none ∨
          ∃ c, r.content = some c ∧ requirement_scan r.file_type c = []) := by
  constructor
  · intro l hl
    unfold Resource.requirements at hl
    obtain ⟨-, -, -, hne⟩ := set_requirements_some hl
    exact hne
  · unfold Resource.requirements _set_requirements
    cases hc : r.content with
    | none => simp
    | some c =>
      by_cases h1 : r.file_type = "unknown".data
      · simp [h1]
      · by_cases h2 : requirement_scan r.file_type c = []
        · simp [h1, h2]
        · simp [h1, h2]

/-- Witness for the C6 theorem: an unknown-type resource with content has
null requirements. -/
theorem requirements_none_or_nonempty_witness :
    (Resource.mk "a.txt".data (some "x".data)).requirements = none :=
  (requirements_none_or_nonempty (Resource.mk "a.txt".data (some "x".data))).2.mpr
    (Or.inl (by decide))

/-- C7: discovery returns `None` exactly when no file of the requested type
exists under any root, and otherwise the non-empty concatenation of the
per-root results in root order; within each root the kept resources are a
sublist of the walked files in walk order. -/
theorem find_all_null_iff_no_match (file_type : List Char)
    (environment : List (List (List Char × List Char))) :
    (find_all_of_type_in_environment file_type environment = none ↔
      ∀ walk ∈ environment, ∀ f ∈ walk,
        (Resource.mk f.1 (some f.2)).file_type ≠ file_type)
    ∧ (∀ l, find_all_of_type_in_environment file_type environment = some l →
        l ≠ [] ∧ l = (environment.map (_find_all_of_type_in_path file_type)).flatten)
    ∧ ∀ walk, (_find_all_of_type_in_path file_type walk).Sublist
        (walk.map (fun f => Resource.mk f.1 (some f.2))) := by
  refine ⟨?_, ?_, fun walk => List.filter_sublist _⟩
  · have hstep : (find_all_of_type_in_environment file_type environment = none ↔
        (environment.map (_find_all_of_type_in_path file_type)).flatten = []) := by
      unfold find_all_of_type_in_environment
      by_cases h : ((environment.map (_find_all_of_type_in_path file_type)).flatten).length > 0
      · rw [if_pos h]
        constructor
        · intro hx; exact absurd hx (by simp)
        · intro he; rw [he] at h; exact absurd h (by simp)
      · rw [if_neg h]
        have : (environment.map (_find_all_of_type_in_path file_type)).flatten = [] :=
          List.length_eq_zero.mp (by omega)
        simp [this]
    rw [hstep, List.flatten_eq_nil_iff]
    constructor
    · intro hall walk hwalk f hf
      have := hall (_find_all_of_type_in_path file_type walk)
        (List.mem_map.mpr ⟨walk, hwalk, rfl⟩)
      rw [_find_all_of_type_in_path, List.filter_eq_nil_iff] at this
      intro heq
      exact this (Resource.mk f.1 (some f.2))
        (List.mem_map.mpr ⟨f, hf, rfl⟩) (by simp [heq])
    · intro hall l hl
      obtain ⟨walk, hwalk, rfl⟩ := List.mem_map.mp hl
      rw [_find_all_of_type_in_path, List.filter_eq_nil_iff]
      intro res hres
      obtain ⟨f, hf, rfl⟩ := List.mem_map.mp hres
      simp [hall walk hwalk f hf]
  · intro l hl
    unfold find_all_of_type_in_environment at hl
    by_cases h : ((environment.map (_find_all_of_type_in_path file_type)).flatten).length > 0
    · rw [if_pos h] at hl
      simp only [Option.some.injEq] at hl
      subst hl
      exact ⟨by intro he; rw [he] at h; exact absurd h (by simp), rfl⟩
    · rw [if_neg h] at hl
      exact absurd hl (by simp)

/-- Witness for the C7 theorem: a one-root environment with a single
javascript file yields exactly that resource. -/
theorem find_all_null_iff_no_match_witness :
    [Resource.mk "x/test.js".data (some "var a;".data)] ≠ ([] : List Resource)
    ∧ [Resource.mk "x/test.js".data (some "var a;".data)] =
        ([[("x/test.js".data, "var a;".data), ("x/test.css".data, "b".data)]].map
          (_find_all_of_type_in_path "javascript".data)).flatten :=
  (find_all_null_iff_no_match "javascript".data
      [[("x/test.js".data, "var a;".data), ("x/test.css".data, "b".data)]]).2.1
    [Resource.mk "x/test.js".data (some "var a;".data)] (by decide)

end Blend
